import Mathlib

/-!
Verification development for the `ocean-plugin` repository's request-admission
core: the `BurstPrevention` tile stager (`src/plugin/widget1/src/utils/BurstPrevention.js`)
and the `WMSRequestThrottler` concurrency limiter (the unnamed source file that
defines `class WMSRequestThrottler`).

The JavaScript code is embedded shallowly:

* `BurstPrevention` is a pure state/counter object; its methods become pure
  functions returning the produced delay together with the updated state.

* `WMSRequestThrottler` is event-loop code.  It is embedded as a labelled
  transition system over an explicit state record that carries exactly the
  fields of the JS object (`activeRequests`, `requestQueue`, `domainQueues`,
  `lastRequestTime`, the configured limits), plus bookkeeping that the
  JavaScript runtime carries implicitly:

    - `pending`: submissions that passed the capacity check but are suspended
      in the `await`-ed minimum-delay `setTimeout` inside `throttleRequest`
      (the body of a JS `async` function runs synchronously up to the first
      `await`; the rest runs later as a separate event-loop job);
    - `activeList`: the set of in-flight requests, each with its admission
      time and the absolute expiry instant of the `setTimeout` started by
      `_executeRequest` (the JS runtime's timer table and the pending
      `tile.onload`/`tile.onerror` handlers);
    - ghost data used only by theorems: each queue entry records an arrival
      sequence number (`seq`) and the wall-clock instant of its submission
      (`submitTime`); request identities (`rid`) stand for the JS
      tile/promise object identities.

  Events are: a call to `throttleRequest` (`Ev.submit`), the resumption of a
  submission after its minimum-delay sleep (`Ev.delayDone`), and the delivery
  of a terminal outcome for an in-flight request (`Ev.complete` with outcome
  load-success, load-error, or timeout) which runs `_onRequestComplete` and
  one `_processQueue` drain.  Wall-clock times (`Date.now()`) are the `now`
  parameters of events.  Domains (hostname strings in JS) are coded as `Nat`.
-/

namespace OceanPlugin

/-! ## BurstPrevention (`src/plugin/widget1/src/utils/BurstPrevention.js`) -/

/-- State of the `BurstPrevention` class: `isInitialLoad`, the per-tile step
delay `initialLoadDelay` (ms), the running `loadedTileCount`, and the
`initialLoadThreshold` after which staging switches off. -/
structure BurstPrevention where
  isInitialLoad : Bool
  initialLoadDelay : Nat
  loadedTileCount : Nat
  initialLoadThreshold : Nat
deriving DecidableEq, Repr

namespace BurstPrevention

/-- The constructor: `isInitialLoad = true`, `initialLoadDelay = 100`,
`loadedTileCount = 0`, `initialLoadThreshold = 10`. -/
def mk0 : BurstPrevention :=
  { isInitialLoad := true
    initialLoadDelay := 100
    loadedTileCount := 0
    initialLoadThreshold := 10 }

/-- Method `getDelayForTile()`: returns the delay for the next tile and the updated
state.  Mirrors the JS method line by line: an early `return 0` when not in
initial-load mode, otherwise increment the counter, end staging (returning 0)
once the counter reaches the threshold, otherwise return
`loadedTileCount * initialLoadDelay`. -/
def getDelayForTile (b : BurstPrevention) : Nat × BurstPrevention :=
  if b.isInitialLoad = false then
    (0, b)
  else
    let c := b.loadedTileCount + 1
    if b.initialLoadThreshold ≤ c then
      (0, { b with loadedTileCount := c, isInitialLoad := false })
    else
      (c * b.initialLoadDelay, { b with loadedTileCount := c })

/-- Method `reset()`: re-enter staging mode with a zeroed tile counter. -/
def reset (b : BurstPrevention) : BurstPrevention :=
  { b with isInitialLoad := true, loadedTileCount := 0 }

/-- Method `disable()`: leave staging mode immediately. -/
def disable (b : BurstPrevention) : BurstPrevention :=
  { b with isInitialLoad := false }

/-- The state after `k` successive `getDelayForTile()` calls. -/
def stateAfterCalls (b : BurstPrevention) : Nat → BurstPrevention
  | 0 => b
  | n + 1 => (getDelayForTile (stateAfterCalls b n)).2

/-- The delay returned by the `k`-th `getDelayForTile()` call (`k ≥ 1`). -/
def nthDelay (b : BurstPrevention) (k : Nat) : Nat :=
  (getDelayForTile (stateAfterCalls b (k - 1))).1

end BurstPrevention

/-! ## WMSRequestThrottler: state -/

/-- A queued request, as pushed by `throttleRequest` when either capacity
check fails: `{ tile, url, domain, priority, resolve, reject }`.  The opaque
`tile`/`url`/promise data is represented by the request identity `rid`;
`seq` (arrival number) and `submitTime` are ghost fields used by theorems. -/
structure Entry where
  rid : Nat
  domain : Nat
  priority : Int
  seq : Nat
  submitTime : Nat
deriving DecidableEq, Repr

/-- A submission suspended inside `throttleRequest`'s minimum-delay `await`:
it has already passed the capacity check and will call `_executeRequest`
when its `setTimeout` fires, at the earliest at `resumeAt`. -/
structure PendingReq where
  rid : Nat
  domain : Nat
  submitTime : Nat
  resumeAt : Nat
deriving DecidableEq, Repr

/-- An in-flight request started by `_executeRequest`: `start` is the
admission instant (when `tile.src` was set and the timeout timer started),
`deadline` the absolute expiry of the 10-second `setTimeout`. -/
structure ActiveReq where
  rid : Nat
  domain : Nat
  start : Nat
  deadline : Nat
  submitTime : Nat
deriving DecidableEq, Repr

/-- The complete throttler state.  `maxConcurrent`, `maxPerDomain`,
`minDelay`, `activeRequests`, `requestQueue`, `domainQueues` (an association
list playing the role of the JS `Map` from domain to `{ active }`), and
`lastRequestTime` are the fields of the JS object; `pending` and
`activeList` model the suspended/in-flight continuations held by the JS
runtime; `nextSeq` is the ghost arrival counter. -/
structure ThState where
  maxConcurrent : Nat
  maxPerDomain : Nat
  minDelay : Nat
  activeRequests : Nat
  requestQueue : List Entry
  domainQueues : List (Nat × Nat)
  lastRequestTime : Nat
  pending : List PendingReq
  activeList : List ActiveReq
  nextSeq : Nat
deriving DecidableEq, Repr

/-- The 10-second per-request timeout hard-coded in `_executeRequest`. -/
def tileTimeoutMs : Nat := 10000

/-- Lookup `this.domainQueues.get(d)` projected to the `active` counter. -/
def getDom (d : Nat) (l : List (Nat × Nat)) : Option Nat :=
  (l.find? (fun p => p.1 == d)).map (fun p => p.2)

/-- Test `this.domainQueues.has(d)`. -/
def hasDom (d : Nat) (l : List (Nat × Nat)) : Bool :=
  (getDom d l).isSome

/-- Line `if (!this.domainQueues.has(domain)) this.domainQueues.set(domain, ...)`
of `throttleRequest`: create the domain record when absent, with `active = 0`. -/
def setDomIfAbsent (d : Nat) (l : List (Nat × Nat)) : List (Nat × Nat) :=
  if hasDom d l then l else l ++ [(d, 0)]

/-- Increment `domainInfo.active++` for domain `d` (the entry is present whenever the
code runs this; see the domain-presence invariant). -/
def bumpDom (d : Nat) (l : List (Nat × Nat)) : List (Nat × Nat) :=
  l.map (fun p => if p.1 == d then (p.1, p.2 + 1) else p)

/-- Guarded decrement `if (domainInfo) domainInfo.active--`: decrement when present, no-op
otherwise, exactly as `_onRequestComplete` guards it. -/
def decDom (d : Nat) (l : List (Nat × Nat)) : List (Nat × Nat) :=
  l.map (fun p => if p.1 == d then (p.1, p.2 - 1) else p)

/-- One step of the stable insertion used to model
`requestQueue.sort((a, b) => a.priority - b.priority)` (JS `Array.sort` is
stable): insert before the first strictly greater priority, after equals. -/
def insertEntry (e : Entry) : List Entry → List Entry
  | [] => [e]
  | f :: fs => if e.priority ≤ f.priority then e :: f :: fs else f :: insertEntry e fs

/-- Stable sort ascending by `priority` (insertion sort; elements earlier in
the input end up earlier among equal priorities). -/
def sortQueue : List Entry → List Entry
  | [] => []
  | e :: es => insertEntry e (sortQueue es)

/-- Whether `r` is the identity of some request currently queued, suspended in
the minimum-delay wait, or in flight (used to keep event labels unambiguous). -/
def usedRid (s : ThState) (r : Nat) : Bool :=
  s.requestQueue.any (fun e => e.rid == r) ||
  s.pending.any (fun p => p.rid == r) ||
  s.activeList.any (fun a => a.rid == r)

/-- Method `_executeRequest(tile, url, domain)` run at instant `now`: increment the
global and per-domain counters, record `lastRequestTime = Date.now()`, start
the 10-second timeout timer, begin the load. -/
def executeRequest (s : ThState) (rid d subT now : Nat) : ThState :=
  { s with
    activeRequests := s.activeRequests + 1
    lastRequestTime := now
    domainQueues := bumpDom d s.domainQueues
    activeList := s.activeList ++ [⟨rid, d, now, now + tileTimeoutMs, subT⟩] }

/-- The counter bookkeeping of `_onRequestComplete(domain)` (the trailing
`_processQueue()` call is applied separately). -/
def onRequestComplete (s : ThState) (d : Nat) : ThState :=
  { s with
    activeRequests := s.activeRequests - 1
    domainQueues := decDom d s.domainQueues }

/-- The scan loop of `_processQueue`: walk the queue in order and return the
first entry satisfying
`activeRequests < maxConcurrent && domainInfo.active < maxPerDomain`
together with the queue with that entry spliced out. -/
def scanQueue (act mc mpd : Nat) (dq : List (Nat × Nat)) :
    List Entry → Option (Entry × List Entry)
  | [] => none
  | e :: es =>
    if act < mc ∧ (getDom e.domain dq).getD 0 < mpd then
      some (e, es)
    else
      match scanQueue act mc mpd dq es with
      | some (f, fs) => some (f, e :: fs)
      | none => none

/-- Method `_processQueue()` at instant `now`: admit (and start executing) the first
eligible queued entry, if any; `break` after one admission. -/
def processQueue (s : ThState) (now : Nat) : ThState :=
  match scanQueue s.activeRequests s.maxConcurrent s.maxPerDomain
      s.domainQueues s.requestQueue with
  | none => s
  | some (e, rest) =>
    executeRequest { s with requestQueue := rest } e.rid e.domain e.submitTime now

/-- Find the in-flight request with identity `r` (first occurrence). -/
def findActive (r : Nat) : List ActiveReq → Option ActiveReq
  | [] => none
  | a :: as => if a.rid = r then some a else findActive r as

/-- Remove the in-flight request with identity `r` (first occurrence). -/
def removeActive (r : Nat) : List ActiveReq → List ActiveReq
  | [] => []
  | a :: as => if a.rid = r then as else a :: removeActive r as

/-- Find the suspended submission with identity `r`. -/
def findPending (r : Nat) : List PendingReq → Option PendingReq
  | [] => none
  | p :: ps => if p.rid = r then some p else findPending r ps

/-- Remove the suspended submission with identity `r`. -/
def removePending (r : Nat) : List PendingReq → List PendingReq
  | [] => []
  | p :: ps => if p.rid = r then ps else p :: removePending r ps

/-- The counter bookkeeping a completion of request `r` performs before its
queue drain: drop `r` from the in-flight set and run `_onRequestComplete`
on its domain. -/
def completeBookkeep (s : ThState) (r : Nat) : ThState :=
  match findActive r s.activeList with
  | none => s
  | some a => onRequestComplete { s with activeList := removeActive r s.activeList } a.domain

/-- The three terminal outcomes a started tile load can have:
`tile.onload`, `tile.onerror`, or the 10-second timeout. -/
inductive Outcome where
  | success
  | loadError
  | timeout
deriving DecidableEq, Repr

/-- Events of the throttler transition system (see the module comment). -/
inductive Ev where
  | submit (rid domain : Nat) (priority : Int) (now : Nat)
  | delayDone (rid now : Nat)
  | complete (rid : Nat) (o : Outcome) (now : Nat)
deriving DecidableEq, Repr

/-- The body of `throttleRequest` after the domain record has been created:
the capacity check, then either enqueue-and-sort, or suspend in the
minimum-delay sleep, or execute at once. -/
def submitCore (s : ThState) (rid d : Nat) (p : Int) (now : Nat) : ThState :=
  if s.maxConcurrent ≤ s.activeRequests ∨
      s.maxPerDomain ≤ (getDom d s.domainQueues).getD 0 then
    { s with
      requestQueue := sortQueue (s.requestQueue ++ [⟨rid, d, p, s.nextSeq, now⟩])
      nextSeq := s.nextSeq + 1 }
  else if now - s.lastRequestTime < s.minDelay then
    { s with
      pending := s.pending ++ [⟨rid, d, now, s.lastRequestTime + s.minDelay⟩] }
  else
    executeRequest s rid d now now

/-- One event-loop job.  `none` marks an event that cannot occur (a resumption
with no matching suspended submission, a completion for a request that is not
in flight, a timer firing early, or a submission reusing a live identity).

`Ev.submit` follows `throttleRequest`: create the domain record if absent;
if `activeRequests >= maxConcurrent || domainInfo.active >= maxPerDomain`,
push onto `requestQueue` and re-sort by priority; otherwise, if less than
`minDelay` ms have passed since `lastRequestTime`, suspend in the
`setTimeout` sleep (it fires at `lastRequestTime + minDelay`, which equals
`now + (minDelay - timeSinceLastRequest)` whether or not `now` is ahead of
`lastRequestTime`); otherwise run `_executeRequest` at once.  Note that the
suspended path re-checks nothing when it resumes — exactly as the JS code.

`Ev.complete` requires `tile.onload`/`tile.onerror` to arrive no later than
the pending timeout timer (which clears those handlers when it fires), and
the `timeout` outcome to occur exactly when the timer expires. -/
def step (s : ThState) (ev : Ev) : Option ThState :=
  match ev with
  | .submit rid d p now =>
    if usedRid s rid then none else
    some (submitCore { s with domainQueues := setDomIfAbsent d s.domainQueues } rid d p now)
  | .delayDone rid now =>
    match findPending rid s.pending with
    | none => none
    | some p =>
      if p.resumeAt ≤ now then
        some (executeRequest { s with pending := removePending rid s.pending }
          rid p.domain p.submitTime now)
      else none
  | .complete rid o now =>
    match findActive rid s.activeList with
    | none => none
    | some a =>
      match o with
      | .timeout =>
        if now = a.deadline then some (processQueue (completeBookkeep s rid) now) else none
      | _ =>
        if now ≤ a.deadline then some (processQueue (completeBookkeep s rid) now) else none

/-- Run a finite list of events. -/
def run (s : ThState) : List Ev → Option ThState
  | [] => some s
  | ev :: evs =>
    match step s ev with
    | some s' => run s' evs
    | none => none

/-- The constructor `new WMSRequestThrottler(maxConcurrent)`:
`maxPerDomain = 2`, `minDelay = 50`, everything else empty/zero. -/
def init (mc : Nat) : ThState :=
  { maxConcurrent := mc
    maxPerDomain := 2
    minDelay := 50
    activeRequests := 0
    requestQueue := []
    domainQueues := []
    lastRequestTime := 0
    pending := []
    activeList := []
    nextSeq := 0 }

/-- States reachable from a freshly constructed throttler. -/
def Reach (mc : Nat) (s : ThState) : Prop :=
  ∃ evs : List Ev, run (init mc) evs = some s

/-- Identities of queued requests. -/
def queueRids (s : ThState) : List Nat := s.requestQueue.map (fun e => e.rid)

/-- Identities of suspended submissions. -/
def pendingRids (s : ThState) : List Nat := s.pending.map (fun p => p.rid)

/-- Identities of in-flight requests. -/
def activeRids (s : ThState) : List Nat := s.activeList.map (fun a => a.rid)

/-- All live request identities. -/
def allRids (s : ThState) : List Nat := queueRids s ++ pendingRids s ++ activeRids s

/-- Eligibility test of the `_processQueue` scan, as a predicate on a state
and a queue entry. -/
def eligible (s : ThState) (e : Entry) : Prop :=
  s.activeRequests < s.maxConcurrent ∧
  (getDom e.domain s.domainQueues).getD 0 < s.maxPerDomain

/-- Strict priority-then-arrival order on queue entries. -/
def entLE (a b : Entry) : Prop :=
  a.priority < b.priority ∨ (a.priority = b.priority ∧ a.seq < b.seq)

/-- Number of in-flight requests for domain `d`. -/
def domCount (d : Nat) (l : List ActiveReq) : Nat :=
  (l.filter (fun a => a.domain == d)).length

/-- A realistic burst: request 1 starts at t=100; requests 2, 3, 4 (three
distinct domains) are submitted 1–3 ms later, each passing the capacity
check, each suspended in the minimum-delay sleep; all three sleeps fire at
t=150. -/
def c1Trace : List Ev :=
  [ .submit 1 1 5 100
  , .submit 2 2 5 101
  , .submit 3 3 5 102
  , .submit 4 4 5 103
  , .delayDone 2 150
  , .delayDone 3 150
  , .delayDone 4 150 ]

/-- Same race on a single domain: request 1 (domain 1) starts at t=100;
requests 2 and 3 for the same domain are submitted 1–2 ms later, pass the
`domainInfo.active >= maxPerDomain` check while the counter is still 1, and
execute when their sleeps fire. -/
def c2Trace : List Ev :=
  [ .submit 1 1 5 100
  , .submit 2 1 5 101
  , .submit 3 1 5 102
  , .delayDone 2 150
  , .delayDone 3 151 ]

/-- The inductive invariant of the throttler transition system.  It ties
the JS counters to the modelled runtime bookkeeping:
`activeRequests` equals the number of in-flight requests; every live
request's domain has a `domainQueues` record; every domain record's counter
equals the number of in-flight requests for that domain; the queue is
sorted by priority with arrival order breaking ties (`entLE` strictly, so
it also says queue entries are pairwise distinct in `(priority, seq)`);
queue sequence numbers are below the arrival counter; live request
identities are pairwise distinct; every in-flight request's timer expires
exactly `tileTimeoutMs` after its admission instant. -/
structure Inv (s : ThState) : Prop where
  countEq : s.activeRequests = s.activeList.length
  qDom : ∀ e ∈ s.requestQueue, (getDom e.domain s.domainQueues).isSome
  pDom : ∀ p ∈ s.pending, (getDom p.domain s.domainQueues).isSome
  aDom : ∀ a ∈ s.activeList, (getDom a.domain s.domainQueues).isSome
  domVal : ∀ d v, getDom d s.domainQueues = some v → v = domCount d s.activeList
  qSorted : s.requestQueue.Pairwise entLE
  seqLt : ∀ e ∈ s.requestQueue, e.seq < s.nextSeq
  ridCount : ∀ r, (allRids s).count r ≤ 1
  deadlines : ∀ a ∈ s.activeList, a.deadline = a.start + tileTimeoutMs

/-- State after the first `n` events of an infinite event stream. -/
def runN (mc : Nat) (evs : Nat → Ev) : Nat → Option ThState
  | 0 => some (init mc)
  | n + 1 =>
    match runN mc evs n with
    | some s => step s (evs n)
    | none => none

/-- Whether an event is the delivery of a terminal outcome. -/
def isCompleteEv : Ev → Bool
  | .complete _ _ _ => true
  | _ => false

/-- The eventual-admission property claimed for the throttler, phrased over
infinite event streams from `new WMSRequestThrottler(3)`: on every stream
whose events can all occur and in which completion events keep occurring
forever, every request that is ever queued is at some later (or equal)
point in the active state. -/
def EventualAdmissionClaim : Prop :=
  ∀ evs : Nat → Ev,
    (∀ n, (runN 3 evs n).isSome) →
    (∀ n, ∃ m, n ≤ m ∧ isCompleteEv (evs m) = true) →
    ∀ n s r, runN 3 evs n = some s → r ∈ queueRids s →
      ∃ m t, n ≤ m ∧ runN 3 evs m = some t ∧ r ∈ activeRids t

/-- The starvation pump used against `EventualAdmissionClaim`: requests 8
and 9 (domain 1, priority 1) start directly and saturate domain 1; request
3 (domain 1, priority 5) is submitted at t=300 and queued.  From then on,
round `j` submits a fresh priority-1 request `10 + j` for domain 1 (queued,
sorted ahead of request 3) and completes the oldest in-flight request
`8 + j`; the drain admits the fresh request, never request 3. -/
def starveEvs : Nat → Ev
  | 0 => .submit 8 1 1 100
  | 1 => .submit 9 1 1 200
  | 2 => .submit 3 1 5 300
  | n + 3 =>
    if n % 2 = 0 then .submit (10 + n / 2) 1 1 (400 + 2 * (n / 2))
    else .complete (8 + n / 2) .success (401 + 2 * (n / 2))

/-- The throttler state before starvation round `j` (valid for `j ≥ 2`):
requests `8 + j` and `9 + j` in flight for domain 1, request 3 still queued. -/
def SState (j : Nat) : ThState :=
  { maxConcurrent := 3
    maxPerDomain := 2
    minDelay := 50
    activeRequests := 2
    requestQueue := [⟨3, 1, 5, 0, 300⟩]
    domainQueues := [(1, 2)]
    lastRequestTime := 399 + 2 * j
    pending := []
    activeList := [⟨8 + j, 1, 397 + 2 * j, 10397 + 2 * j, 396 + 2 * j⟩,
                   ⟨9 + j, 1, 399 + 2 * j, 10399 + 2 * j, 398 + 2 * j⟩]
    nextSeq := j + 1 }

/-- The state in the middle of starvation round `j`, after the round's
fresh submission has been queued ahead of request 3. -/
def MState (j : Nat) : ThState :=
  { SState j with
    requestQueue := [⟨10 + j, 1, 1, j + 1, 400 + 2 * j⟩, ⟨3, 1, 5, 0, 300⟩]
    nextSeq := j + 2 }

/-! ### Concrete states used by the witnesses -/

/-- Trace: requests 1, 2 (domain 1) and 3 (domain 2) execute directly and
fill the global limit; request 4 (domain 1, priority 1) and request 5
(domain 2, priority 7) are queued. -/
def c3T : List Ev :=
  [.submit 1 1 5 100, .submit 2 1 5 200, .submit 3 2 5 300,
   .submit 4 1 1 400, .submit 5 2 7 500]

/-- The state `run (init 3) c3T` reaches. -/
def c3S : ThState :=
  ⟨3, 2, 50, 3,
    [⟨4, 1, 1, 0, 400⟩, ⟨5, 2, 7, 1, 500⟩],
    [(1, 2), (2, 1)], 300, [],
    [⟨1, 1, 100, 10100, 100⟩, ⟨2, 1, 200, 10200, 200⟩, ⟨3, 2, 300, 10300, 300⟩], 2⟩

/-- The entry the drain admits after request 3 completes: priority 7 for the
free domain 2, over the queued priority-1 request for saturated domain 1. -/
def c3E : Entry := ⟨5, 2, 7, 1, 500⟩

/-- A state with two free global slots and two eligible queued entries
(domains 1 and 2 both under their caps): one drain still admits only one. -/
def c4S : ThState :=
  ⟨3, 2, 50, 1,
    [⟨10, 1, 1, 0, 100⟩, ⟨11, 2, 2, 1, 110⟩],
    [(1, 1), (2, 0)], 150, [],
    [⟨7, 1, 150, 10150, 150⟩], 2⟩

/-- Trace: a single direct execution. -/
def c5T : List Ev := [.submit 1 1 5 100]

/-- The state `run (init 3) c5T` reaches. -/
def c5S : ThState :=
  ⟨3, 2, 50, 1, [], [(1, 1)], 100, [], [⟨1, 1, 100, 10100, 100⟩], 0⟩

/-- The in-flight request of `c5S`. -/
def c5A : ActiveReq := ⟨1, 1, 100, 10100, 100⟩

/-- Trace: three requests fill the global limit, request 4 (domain 3) is
queued at t=400, and the timeout of request 1 at t=10100 admits it — after
9700 ms in the queue, far past `submitTime + tileTimeoutMs`. -/
def c6T : List Ev :=
  [.submit 1 1 5 100, .submit 2 1 5 200, .submit 3 2 5 300, .submit 4 3 5 400,
   .complete 1 .timeout 10100]

/-- The state `run (init 3) c6T` reaches. -/
def c6S : ThState :=
  ⟨3, 2, 50, 3, [], [(1, 1), (2, 1), (3, 1)], 10100, [],
    [⟨2, 1, 200, 10200, 200⟩, ⟨3, 2, 300, 10300, 300⟩, ⟨4, 3, 10100, 20100, 400⟩], 1⟩

/-- The long-queued request of `c6S`: admitted at 10100, timer set to 20100. -/
def c6A : ActiveReq := ⟨4, 3, 10100, 20100, 400⟩

/-- Trace: domain 1 saturated by requests 1 and 2; request 3 queued. -/
def c9T : List Ev := [.submit 1 1 5 100, .submit 2 1 5 200, .submit 3 1 5 300]

/-- The state `run (init 3) c9T` reaches. -/
def c9S : ThState :=
  ⟨3, 2, 50, 2, [⟨3, 1, 5, 0, 300⟩], [(1, 2)], 200, [],
    [⟨1, 1, 100, 10100, 100⟩, ⟨2, 1, 200, 10200, 200⟩], 1⟩

/-- Trace: like `c9T` but with request 3 submitted at t=210, so that the
completion of request 1 at t=220 lands only 20 ms after the last request
start — inside the 50 ms spacing window. -/
def c10T : List Ev := [.submit 1 1 5 100, .submit 2 1 5 200, .submit 3 1 5 210]

/-- The state `run (init 3) c10T` reaches. -/
def c10S : ThState :=
  ⟨3, 2, 50, 2, [⟨3, 1, 5, 0, 210⟩], [(1, 2)], 200, [],
    [⟨1, 1, 100, 10100, 100⟩, ⟨2, 1, 200, 10200, 200⟩], 1⟩

/-- The state after completing request 1 at t=220: request 3 was admitted
immediately by the drain despite the 20 ms gap. -/
def c10S2 : ThState :=
  ⟨3, 2, 50, 2, [], [(1, 2)], 220, [],
    [⟨2, 1, 200, 10200, 200⟩, ⟨3, 1, 220, 10220, 210⟩], 1⟩

/-- The request the drain admitted in `c10S2`. -/
def c10A : ActiveReq := ⟨3, 1, 220, 10220, 210⟩

/-! ## Association-list and removal lemmas -/

theorem getDom_nil (x : Nat) : getDom x [] = none := rfl

theorem getDom_cons (q : Nat × Nat) (l : List (Nat × Nat)) (x : Nat) :
    getDom x (q :: l) = if q.1 = x then some q.2 else getDom x l := by
  by_cases h : q.1 = x
  · simp [getDom, List.find?, h]
  · have hb : (q.1 == x) = false := by simp [h]
    simp [getDom, List.find?, hb, h]

theorem getDom_append_of_isSome {x : Nat} {l₁ : List (Nat × Nat)} {v : Nat}
    (h : getDom x l₁ = some v) (l₂ : List (Nat × Nat)) :
    getDom x (l₁ ++ l₂) = some v := by
  induction l₁ with
  | nil => simp [getDom_nil] at h
  | cons q l ih =>
    rw [List.cons_append, getDom_cons]
    rw [getDom_cons] at h
    by_cases hq : q.1 = x
    · simpa [hq] using h
    · rw [if_neg hq] at h ⊢; exact ih h

theorem getDom_append_of_none {x : Nat} {l₁ : List (Nat × Nat)}
    (h : getDom x l₁ = none) (l₂ : List (Nat × Nat)) :
    getDom x (l₁ ++ l₂) = getDom x l₂ := by
  induction l₁ with
  | nil => simp
  | cons q l ih =>
    rw [getDom_cons] at h
    by_cases hq : q.1 = x
    · simp [hq] at h
    · rw [List.cons_append, getDom_cons, if_neg hq]
      exact ih (by rwa [if_neg hq] at h)

theorem getDom_setDomIfAbsent_self (d : Nat) (l : List (Nat × Nat)) :
    getDom d (setDomIfAbsent d l) = some ((getDom d l).getD 0) := by
  unfold setDomIfAbsent hasDom
  cases h : getDom d l with
  | some v => simp [h]
  | none =>
    simp only [Option.isSome_none, Bool.false_eq_true, if_false, Option.getD_none]
    rw [getDom_append_of_none h, getDom_cons]
    simp

theorem getDom_setDomIfAbsent_of_isSome {x : Nat} {l : List (Nat × Nat)} {v : Nat}
    (h : getDom x l = some v) (d : Nat) :
    getDom x (setDomIfAbsent d l) = some v := by
  unfold setDomIfAbsent
  split
  · exact h
  · exact getDom_append_of_isSome h _

theorem getDom_setDomIfAbsent_cases {x d : Nat} {l : List (Nat × Nat)} {v : Nat}
    (h : getDom x (setDomIfAbsent d l) = some v) :
    getDom x l = some v ∨ (x = d ∧ v = 0 ∧ getDom x l = none) := by
  unfold setDomIfAbsent at h
  split at h
  · exact Or.inl h
  · cases hx : getDom x l with
    | some w => rw [getDom_append_of_isSome hx] at h; exact Or.inl h
    | none =>
      rw [getDom_append_of_none hx, getDom_cons] at h
      by_cases hxd : d = x
      · rw [if_pos hxd] at h
        refine Or.inr ⟨hxd.symm, ?_, rfl⟩
        simpa using h.symm
      · rw [if_neg hxd] at h; simp [getDom_nil] at h

theorem getDom_bumpDom (x d : Nat) (l : List (Nat × Nat)) :
    getDom x (bumpDom d l) =
      if x = d then (getDom x l).map (· + 1) else getDom x l := by
  induction l with
  | nil => by_cases h : x = d <;> simp [bumpDom, getDom_nil, h]
  | cons q l ih =>
    obtain ⟨a, b⟩ := q
    unfold bumpDom at ih ⊢
    rw [List.map_cons]
    by_cases had : a = d
    · have hh : (if ((a, b).1 == d) = true then ((a, b).1, (a, b).2 + 1) else (a, b)) =
          (a, b + 1) := by simp [had]
      rw [hh, getDom_cons, getDom_cons]
      by_cases hax : a = x
      · have hxd : x = d := by omega
        simp [hax, hxd]
      · have h1 : ¬((a, b + 1).1 = x) := by simpa using hax
        have h2 : ¬((a, b).1 = x) := by simpa using hax
        simp only [if_neg h1, if_neg h2, ih]
    · have hh : (if ((a, b).1 == d) = true then ((a, b).1, (a, b).2 + 1) else (a, b)) =
          (a, b) := by simp [had]
      rw [hh, getDom_cons, getDom_cons]
      by_cases hax : a = x
      · have hxd : ¬x = d := by omega
        simp [hax, hxd]
      · have h2 : ¬((a, b).1 = x) := by simpa using hax
        simp only [if_neg h2, ih]

theorem getDom_decDom (x d : Nat) (l : List (Nat × Nat)) :
    getDom x (decDom d l) =
      if x = d then (getDom x l).map (· - 1) else getDom x l := by
  induction l with
  | nil => by_cases h : x = d <;> simp [decDom, getDom_nil, h]
  | cons q l ih =>
    obtain ⟨a, b⟩ := q
    unfold decDom at ih ⊢
    rw [List.map_cons]
    by_cases had : a = d
    · have hh : (if ((a, b).1 == d) = true then ((a, b).1, (a, b).2 - 1) else (a, b)) =
          (a, b - 1) := by simp [had]
      rw [hh, getDom_cons, getDom_cons]
      by_cases hax : a = x
      · have hxd : x = d := by omega
        simp [hax, hxd]
      · have h1 : ¬((a, b - 1).1 = x) := by simpa using hax
        have h2 : ¬((a, b).1 = x) := by simpa using hax
        simp only [if_neg h1, if_neg h2, ih]
    · have hh : (if ((a, b).1 == d) = true then ((a, b).1, (a, b).2 - 1) else (a, b)) =
          (a, b) := by simp [had]
      rw [hh, getDom_cons, getDom_cons]
      by_cases hax : a = x
      · have hxd : ¬x = d := by omega
        simp [hax, hxd]
      · have h2 : ¬((a, b).1 = x) := by simpa using hax
        simp only [if_neg h2, ih]

theorem isSome_getDom_bumpDom {x : Nat} {l : List (Nat × Nat)} (d : Nat)
    (h : (getDom x l).isSome) : (getDom x (bumpDom d l)).isSome := by
  rw [getDom_bumpDom]
  split
  · cases hx : getDom x l with
    | none => rw [hx] at h; simp at h
    | some v => simp [hx]
  · exact h

theorem isSome_getDom_decDom {x : Nat} {l : List (Nat × Nat)} (d : Nat)
    (h : (getDom x l).isSome) : (getDom x (decDom d l)).isSome := by
  rw [getDom_decDom]
  split
  · cases hx : getDom x l with
    | none => rw [hx] at h; simp at h
    | some v => simp [hx]
  · exact h

/-! ## Find/remove/count lemmas for the runtime bookkeeping lists -/

theorem domCount_cons (d : Nat) (a : ActiveReq) (l : List ActiveReq) :
    domCount d (a :: l) = (if a.domain = d then 1 else 0) + domCount d l := by
  by_cases h : a.domain = d <;>
    simp [domCount, List.filter_cons, h, Nat.add_comm]

theorem domCount_append (d : Nat) (l₁ l₂ : List ActiveReq) :
    domCount d (l₁ ++ l₂) = domCount d l₁ + domCount d l₂ := by
  simp [domCount, List.filter_append]

theorem domCount_eq_zero_of {d : Nat} {l : List ActiveReq}
    (h : ∀ a ∈ l, a.domain ≠ d) : domCount d l = 0 := by
  induction l with
  | nil => rfl
  | cons a l ih =>
    rw [domCount_cons, if_neg (h a (List.mem_cons_self a l)), ih fun b hb =>
      h b (List.mem_cons_of_mem a hb)]

theorem findActive_rid_mem {r : Nat} {l : List ActiveReq} {a : ActiveReq}
    (h : findActive r l = some a) : a.rid = r ∧ a ∈ l := by
  induction l with
  | nil => simp [findActive] at h
  | cons b l ih =>
    unfold findActive at h
    by_cases hb : b.rid = r
    · rw [if_pos hb] at h
      injection h with h
      subst h
      exact ⟨hb, List.mem_cons_self _ _⟩
    · rw [if_neg hb] at h
      obtain ⟨h1, h2⟩ := ih h
      exact ⟨h1, List.mem_cons_of_mem _ h2⟩

theorem findActive_eq_none {r : Nat} {l : List ActiveReq}
    (h : ∀ a ∈ l, a.rid ≠ r) : findActive r l = none := by
  induction l with
  | nil => rfl
  | cons b l ih =>
    unfold findActive
    rw [if_neg (h b (List.mem_cons_self b l))]
    exact ih fun a ha => h a (List.mem_cons_of_mem b ha)

theorem removeActive_sublist (r : Nat) (l : List ActiveReq) :
    List.Sublist (removeActive r l) l := by
  induction l with
  | nil => exact List.Sublist.refl []
  | cons b l ih =>
    unfold removeActive
    by_cases hb : b.rid = r
    · rw [if_pos hb]; exact List.sublist_cons_self b l
    · rw [if_neg hb]; exact ih.cons₂ b

theorem length_removeActive {r : Nat} {l : List ActiveReq} {a : ActiveReq}
    (h : findActive r l = some a) : l.length = (removeActive r l).length + 1 := by
  induction l with
  | nil => simp [findActive] at h
  | cons b l ih =>
    unfold findActive at h
    unfold removeActive
    by_cases hb : b.rid = r
    · rw [if_pos hb]; simp
    · rw [if_neg hb] at h
      rw [if_neg hb, List.length_cons, List.length_cons, ih h]

theorem domCount_removeActive {r : Nat} {l : List ActiveReq} {a : ActiveReq}
    (h : findActive r l = some a) (d : Nat) :
    domCount d l = domCount d (removeActive r l) + (if a.domain = d then 1 else 0) := by
  induction l with
  | nil => simp [findActive] at h
  | cons b l ih =>
    unfold findActive at h
    unfold removeActive
    by_cases hb : b.rid = r
    · rw [if_pos hb] at h
      injection h with h
      subst h
      rw [if_pos hb, domCount_cons]
      omega
    · rw [if_neg hb] at h
      rw [if_neg hb, domCount_cons, domCount_cons, ih h]
      omega

theorem count_rids_removeActive {r : Nat} {l : List ActiveReq} {a : ActiveReq}
    (h : findActive r l = some a) (x : Nat) :
    (l.map (fun b => b.rid)).count x =
      ((removeActive r l).map (fun b => b.rid)).count x + (if r = x then 1 else 0) := by
  induction l with
  | nil => simp [findActive] at h
  | cons b l ih =>
    unfold findActive at h
    unfold removeActive
    by_cases hb : b.rid = r
    · rw [if_pos hb] at h
      rw [if_pos hb, List.map_cons, List.count_cons]
      by_cases hx : r = x <;> simp [hb, hx]
    · rw [if_neg hb] at h
      rw [if_neg hb, List.map_cons, List.map_cons, List.count_cons, List.count_cons, ih h]
      omega

theorem findActive_of_mem_unique {l : List ActiveReq} {a : ActiveReq}
    (hcount : (l.map (fun b => b.rid)).count a.rid ≤ 1) (ha : a ∈ l) :
    findActive a.rid l = some a := by
  induction l with
  | nil => simp at ha
  | cons b l ih =>
    unfold findActive
    by_cases hb : b.rid = a.rid
    · rw [if_pos hb]
      rcases List.mem_cons.mp ha with rfl | ha'
      · rfl
      · exfalso
        have h1 : a.rid ∈ l.map (fun b => b.rid) := List.mem_map_of_mem _ ha'
        have h2 : 1 ≤ (l.map (fun b => b.rid)).count a.rid :=
          List.count_pos_iff.mpr h1
        rw [List.map_cons, List.count_cons] at hcount
        simp [hb] at hcount
        omega
    · rw [if_neg hb]
      have ha' : a ∈ l := by
        rcases List.mem_cons.mp ha with rfl | ha'
        · exact absurd rfl hb
        · exact ha'
      refine ih ?_ ha'
      rw [List.map_cons, List.count_cons] at hcount
      omega

theorem findPending_rid_mem {r : Nat} {l : List PendingReq} {p : PendingReq}
    (h : findPending r l = some p) : p.rid = r ∧ p ∈ l := by
  induction l with
  | nil => simp [findPending] at h
  | cons b l ih =>
    unfold findPending at h
    by_cases hb : b.rid = r
    · rw [if_pos hb] at h
      injection h with h
      subst h
      exact ⟨hb, List.mem_cons_self _ _⟩
    · rw [if_neg hb] at h
      obtain ⟨h1, h2⟩ := ih h
      exact ⟨h1, List.mem_cons_of_mem _ h2⟩

theorem removePending_sublist (r : Nat) (l : List PendingReq) :
    List.Sublist (removePending r l) l := by
  induction l with
  | nil => exact List.Sublist.refl []
  | cons b l ih =>
    unfold removePending
    by_cases hb : b.rid = r
    · rw [if_pos hb]; exact List.sublist_cons_self b l
    · rw [if_neg hb]; exact ih.cons₂ b

theorem count_rids_removePending {r : Nat} {l : List PendingReq} {p : PendingReq}
    (h : findPending r l = some p) (x : Nat) :
    (l.map (fun b => b.rid)).count x =
      ((removePending r l).map (fun b => b.rid)).count x + (if r = x then 1 else 0) := by
  induction l with
  | nil => simp [findPending] at h
  | cons b l ih =>
    unfold findPending at h
    unfold removePending
    by_cases hb : b.rid = r
    · rw [if_pos hb] at h
      rw [if_pos hb, List.map_cons, List.count_cons]
      by_cases hx : r = x <;> simp [hb, hx]
    · rw [if_neg hb] at h
      rw [if_neg hb, List.map_cons, List.map_cons, List.count_cons, List.count_cons, ih h]
      omega

theorem usedRid_false_count {s : ThState} {r : Nat} (h : usedRid s r = false) :
    (allRids s).count r = 0 := by
  unfold usedRid at h
  simp only [Bool.or_eq_false_iff, List.any_eq_false] at h
  obtain ⟨⟨hq, hp⟩, ha⟩ := h
  rw [List.count_eq_zero]
  unfold allRids queueRids pendingRids activeRids
  intro hmem
  rcases List.mem_append.mp hmem with hmem | hmem
  · rcases List.mem_append.mp hmem with hmem | hmem
    · obtain ⟨e, he, hrid⟩ := List.mem_map.mp hmem
      exact absurd (by simpa using hrid) (by simpa using hq e he)
    · obtain ⟨p, hp', hrid⟩ := List.mem_map.mp hmem
      exact absurd (by simpa using hrid) (by simpa using hp p hp')
  · obtain ⟨a, ha', hrid⟩ := List.mem_map.mp hmem
    exact absurd (by simpa using hrid) (by simpa using ha a ha')

/-! ## Sorting lemmas: the re-sorted queue stays priority/arrival ordered -/

theorem insertEntry_perm (e : Entry) (l : List Entry) :
    List.Perm (insertEntry e l) (e :: l) := by
  induction l with
  | nil => exact List.Perm.refl _
  | cons f fs ih =>
    unfold insertEntry
    by_cases h : e.priority ≤ f.priority
    · rw [if_pos h]
    · rw [if_neg h]
      exact List.Perm.trans (List.Perm.cons f ih) (List.Perm.swap e f fs)

theorem sortQueue_perm (l : List Entry) : List.Perm (sortQueue l) l := by
  induction l with
  | nil => exact List.Perm.refl _
  | cons e es ih =>
    exact List.Perm.trans (insertEntry_perm e (sortQueue es)) (List.Perm.cons e ih)

theorem mem_sortQueue {x : Entry} {l : List Entry} :
    x ∈ sortQueue l ↔ x ∈ l :=
  (sortQueue_perm l).mem_iff

theorem entLE_priority_le {a b : Entry} (h : entLE a b) : a.priority ≤ b.priority := by
  rcases h with h | ⟨h, _⟩
  · exact le_of_lt h
  · exact le_of_eq h

theorem insertEntry_pairwise {f : Entry} {l : List Entry}
    (hl : l.Pairwise entLE)
    (hf : ∀ g ∈ l, f.priority < g.priority ∨ f.seq < g.seq) :
    (insertEntry f l).Pairwise entLE := by
  induction l with
  | nil => simp [insertEntry]
  | cons g gs ih =>
    rw [List.pairwise_cons] at hl
    obtain ⟨hg, hgs⟩ := hl
    unfold insertEntry
    by_cases h : f.priority ≤ g.priority
    · rw [if_pos h]
      rw [List.pairwise_cons]
      refine ⟨?_, List.pairwise_cons.mpr ⟨hg, hgs⟩⟩
      intro x hx
      have hple : f.priority ≤ x.priority := by
        rcases List.mem_cons.mp hx with rfl | hx'
        · exact h
        · exact le_trans h (entLE_priority_le (hg x hx'))
      rcases hf x hx with hlt | hseq
      · exact Or.inl hlt
      · rcases lt_or_eq_of_le hple with hlt | heq
        · exact Or.inl hlt
        · exact Or.inr ⟨heq, hseq⟩
    · rw [if_neg h]
      rw [List.pairwise_cons]
      constructor
      · intro x hx
        rcases List.mem_cons.mp ((insertEntry_perm f gs).mem_iff.mp hx) with rfl | hx'
        · exact Or.inl (lt_of_not_le h)
        · exact hg x hx'
      · exact ih hgs fun x hx => hf x (List.mem_cons_of_mem g hx)

theorem sortQueue_append_single_pairwise {q : List Entry} {e : Entry}
    (hq : q.Pairwise entLE) (hseq : ∀ g ∈ q, g.seq < e.seq) :
    (sortQueue (q ++ [e])).Pairwise entLE := by
  induction q with
  | nil => simp [sortQueue, insertEntry]
  | cons f fs ih =>
    rw [List.pairwise_cons] at hq
    obtain ⟨hf, hfs⟩ := hq
    rw [List.cons_append]
    unfold sortQueue
    refine insertEntry_pairwise (ih hfs fun g hg => hseq g (List.mem_cons_of_mem f hg)) ?_
    intro g hg
    rcases (sortQueue_perm (fs ++ [e])).mem_iff.mp hg with hg'
    rcases List.mem_append.mp hg' with hg'' | hg''
    · rcases hf g hg'' with hlt | ⟨_, hseq'⟩
      · exact Or.inl hlt
      · exact Or.inr hseq'
    · rcases List.mem_singleton.mp hg'' with rfl
      exact Or.inr (hseq f (List.mem_cons_self f fs))

/-! ## The `_processQueue` scan: decomposition of a successful scan -/

theorem scanQueue_some {act mc mpd : Nat} {dq : List (Nat × Nat)}
    {q : List Entry} {e : Entry} {rest : List Entry}
    (h : scanQueue act mc mpd dq q = some (e, rest)) :
    ∃ pre suf, q = pre ++ e :: suf ∧ rest = pre ++ suf ∧
      (∀ x ∈ pre, ¬(act < mc ∧ (getDom x.domain dq).getD 0 < mpd)) ∧
      act < mc ∧ (getDom e.domain dq).getD 0 < mpd := by
  induction q generalizing e rest with
  | nil => simp [scanQueue] at h
  | cons f fs ih =>
    unfold scanQueue at h
    by_cases hcond : act < mc ∧ (getDom f.domain dq).getD 0 < mpd
    · rw [if_pos hcond] at h
      injection h with h
      injection h with h1 h2
      subst h1; subst h2
      exact ⟨[], fs, rfl, rfl, by simp, hcond⟩
    · rw [if_neg hcond] at h
      cases hscan : scanQueue act mc mpd dq fs with
      | none => rw [hscan] at h; simp at h
      | some pr =>
        obtain ⟨g, gs⟩ := pr
        rw [hscan] at h
        injection h with h
        injection h with h1 h2
        subst h1
        obtain ⟨pre, suf, hq, hrest, hpre, hel⟩ := ih hscan
        subst h2
        refine ⟨f :: pre, suf, by simp [hq], by simp [hrest], ?_, hel⟩
        intro x hx
        rcases List.mem_cons.mp hx with rfl | hx'
        · exact hcond
        · exact hpre x hx'

/-! ## C1 and C2: the capacity caps are not invariant

`throttleRequest` checks the caps, then `await`s the minimum-delay sleep,
and only increments the counters after resuming.  Every submission arriving
during such a sleep sees the still-unincremented counters, passes the check,
and executes after its own sleep.  The traces below exercise exactly that:
one request starts normally at t=100 (setting `lastRequestTime`), the
following `createTile` submissions land within the 50 ms window and all
pass the check while `activeRequests` is still 1. -/

/-- C1, failing input: the throttler built with `maxConcurrent = 3` reaches a
state with `activeRequests = 4` on `c1Trace` — four requests are
simultaneously in the active state, exceeding the global cap. -/
theorem c1_global_cap_violated :
    ∃ s : ThState, run (init 3) c1Trace = some s ∧
      s.activeRequests = 4 ∧ s.maxConcurrent = 3 ∧
      s.maxConcurrent < s.activeRequests :=
  ⟨_, rfl, by decide, by decide, by decide⟩

/-- C2, failing input: with `maxPerDomain = 2` (the constructor's value),
domain 1 reaches an active count of 3 on `c2Trace`. -/
theorem c2_domain_cap_violated :
    ∃ s : ThState, run (init 3) c2Trace = some s ∧
      getDom 1 s.domainQueues = some 3 ∧ s.maxPerDomain = 2 ∧
      s.maxPerDomain < (getDom 1 s.domainQueues).getD 0 :=
  ⟨_, rfl, by decide, by decide, by decide⟩

/-! ## C8: Burst Stager threshold behaviour -/

/-- C8: starting from `reset()` with the default configuration
(`initialLoadDelay = 100`, `initialLoadThreshold = 10`), the `k`-th
`getDelayForTile()` call returns `k * 100` for `k = 1 .. 9`; the 10th call
returns 0 and ends staging (`isInitialLoad` becomes false); every later call
returns 0 (no `reset()` occurring in between). -/
theorem c8_burst_stager_threshold (b : BurstPrevention)
    (hd : b.initialLoadDelay = 100) (ht : b.initialLoadThreshold = 10) :
    (∀ k, k ≤ 9 → 1 ≤ k → (b.reset).nthDelay k = k * 100) ∧
    (b.reset).nthDelay 10 = 0 ∧
    ((b.reset).stateAfterCalls 10).isInitialLoad = false ∧
    (∀ k, 10 ≤ k → (b.reset).nthDelay k = 0) := by
  obtain ⟨i, dl, c, th⟩ := b
  subst hd; subst ht
  have hreset : BurstPrevention.reset ⟨i, 100, c, 10⟩ = ⟨true, 100, 0, 10⟩ := rfl
  rw [hreset]
  refine ⟨by decide, by decide, by decide, ?_⟩
  have hfix : ∀ m,
      BurstPrevention.stateAfterCalls ⟨true, 100, 0, 10⟩ (10 + m) = ⟨false, 100, 10, 10⟩ := by
    intro m
    induction m with
    | zero => decide
    | succ m ih =>
      show (BurstPrevention.getDelayForTile
        (BurstPrevention.stateAfterCalls ⟨true, 100, 0, 10⟩ (10 + m))).2 = _
      rw [ih]; decide
  intro k hk
  rcases Nat.lt_or_ge k 11 with hk11 | hk11
  · have hk10 : k = 10 := by omega
    subst hk10; decide
  · obtain ⟨m, rfl⟩ : ∃ m, k = 11 + m := ⟨k - 11, by omega⟩
    have harg : 11 + m - 1 = 10 + m := by omega
    rw [BurstPrevention.nthDelay, harg, hfix]; decide

/-- Witness for C8 at the concrete constructor state. -/
theorem c8_burst_stager_threshold_witness :
    BurstPrevention.mk0.initialLoadDelay = 100 ∧
    BurstPrevention.mk0.initialLoadThreshold = 10 ∧
    ((∀ k, k ≤ 9 → 1 ≤ k → (BurstPrevention.mk0.reset).nthDelay k = k * 100) ∧
      (BurstPrevention.mk0.reset).nthDelay 10 = 0 ∧
      ((BurstPrevention.mk0.reset).stateAfterCalls 10).isInitialLoad = false ∧
      (∀ k, 10 ≤ k → (BurstPrevention.mk0.reset).nthDelay k = 0)) :=
  ⟨rfl, rfl, c8_burst_stager_threshold BurstPrevention.mk0 rfl rfl⟩

/-! ## The inductive invariant: initialization and preservation -/

theorem inv_init (mc : Nat) : Inv (init mc) := by
  refine ⟨rfl, ?_, ?_, ?_, ?_, ?_, ?_, ?_, ?_⟩ <;>
    simp [init, getDom_nil, allRids, queueRids, pendingRids, activeRids]

theorem isSome_getDom_setDomIfAbsent {x : Nat} {l : List (Nat × Nat)} (d : Nat)
    (h : (getDom x l).isSome) : (getDom x (setDomIfAbsent d l)).isSome := by
  obtain ⟨v, hv⟩ := Option.isSome_iff_exists.mp h
  rw [getDom_setDomIfAbsent_of_isSome hv]
  rfl

theorem inv_setDomIfAbsent {s : ThState} (hs : Inv s) (d : Nat) :
    Inv { s with domainQueues := setDomIfAbsent d s.domainQueues } := by
  refine ⟨hs.countEq, ?_, ?_, ?_, ?_, hs.qSorted, hs.seqLt, hs.ridCount, hs.deadlines⟩
  · intro e he; exact isSome_getDom_setDomIfAbsent d (hs.qDom e he)
  · intro p hp; exact isSome_getDom_setDomIfAbsent d (hs.pDom p hp)
  · intro a ha; exact isSome_getDom_setDomIfAbsent d (hs.aDom a ha)
  · intro x v hv
    rcases getDom_setDomIfAbsent_cases hv with h | ⟨hxd, hv0, hnone⟩
    · exact hs.domVal x v h
    · subst hv0
      refine (domCount_eq_zero_of ?_).symm
      intro a ha hdom
      have hsome := hs.aDom a ha
      rw [hdom, hnone] at hsome
      simp at hsome

theorem domCount_singleton_same (a : ActiveReq) : domCount a.domain [a] = 1 := by
  simp [domCount]

theorem domCount_singleton_other {x : Nat} (a : ActiveReq) (h : a.domain ≠ x) :
    domCount x [a] = 0 := by
  simp [domCount, h]

theorem inv_executeRequest {s : ThState} (hs : Inv s) {rid d subT now : Nat}
    (hd : (getDom d s.domainQueues).isSome)
    (hfresh : (allRids s).count rid = 0) :
    Inv (executeRequest s rid d subT now) := by
  obtain ⟨w, hw⟩ := Option.isSome_iff_exists.mp hd
  have hdq : (executeRequest s rid d subT now).domainQueues = bumpDom d s.domainQueues := rfl
  have hact : (executeRequest s rid d subT now).activeList =
      s.activeList ++ [⟨rid, d, now, now + tileTimeoutMs, subT⟩] := rfl
  refine ⟨?_, ?_, ?_, ?_, ?_, hs.qSorted, hs.seqLt, ?_, ?_⟩
  · show s.activeRequests + 1 =
      (s.activeList ++ [(⟨rid, d, now, now + tileTimeoutMs, subT⟩ : ActiveReq)]).length
    rw [List.length_append, hs.countEq]
    rfl
  · intro e he
    rw [hdq]
    exact isSome_getDom_bumpDom d (hs.qDom e he)
  · intro p hp
    rw [hdq]
    exact isSome_getDom_bumpDom d (hs.pDom p hp)
  · intro a ha
    rw [hdq]
    rw [hact] at ha
    rcases List.mem_append.mp ha with ha' | ha'
    · exact isSome_getDom_bumpDom d (hs.aDom a ha')
    · rcases List.mem_singleton.mp ha' with rfl
      exact isSome_getDom_bumpDom d hd
  · intro x v hv
    rw [hdq, getDom_bumpDom] at hv
    rw [hact, domCount_append]
    by_cases hx : x = d
    · subst hx
      rw [if_pos rfl, hw] at hv
      have hv1 : w + 1 = v := by simpa using hv
      have h2 := hs.domVal x w hw
      have h3 : domCount x [(⟨rid, x, now, now + tileTimeoutMs, subT⟩ : ActiveReq)] = 1 :=
        domCount_singleton_same ⟨rid, x, now, now + tileTimeoutMs, subT⟩
      omega
    · rw [if_neg hx] at hv
      have h2 := hs.domVal x v hv
      have h3 : domCount x [(⟨rid, d, now, now + tileTimeoutMs, subT⟩ : ActiveReq)] = 0 :=
        domCount_singleton_other _ fun h => hx h.symm
      omega
  · intro r
    have hq : queueRids (executeRequest s rid d subT now) = queueRids s := rfl
    have hp : pendingRids (executeRequest s rid d subT now) = pendingRids s := rfl
    have ha : activeRids (executeRequest s rid d subT now) = activeRids s ++ [rid] := by
      show (s.activeList ++ [(⟨rid, d, now, now + tileTimeoutMs, subT⟩ : ActiveReq)]).map
        (fun a => a.rid) = _
      rw [List.map_append]
      rfl
    rw [allRids, hq, hp, ha]
    have h1 := hs.ridCount r
    rw [allRids, List.count_append, List.count_append] at h1
    rw [List.count_append, List.count_append, List.count_append]
    have h0 := hfresh
    rw [allRids, List.count_append, List.count_append] at h0
    have hsing : List.count r [rid] = if r = rid then 1 else 0 := by
      by_cases hr : r = rid <;> simp [hr]
    by_cases hr : r = rid
    · subst hr
      rw [hsing, if_pos rfl]
      omega
    · rw [hsing, if_neg hr]
      omega
  · intro a ha
    rw [hact] at ha
    rcases List.mem_append.mp ha with ha' | ha'
    · exact hs.deadlines a ha'
    · rcases List.mem_singleton.mp ha' with rfl
      rfl

theorem inv_submitCore {s : ThState} (hs : Inv s) {rid d : Nat} {p : Int} {now : Nat}
    (hd : (getDom d s.domainQueues).isSome)
    (hfresh : (allRids s).count rid = 0) :
    Inv (submitCore s rid d p now) := by
  unfold submitCore
  split
  · -- capacity exceeded: push and re-sort
    refine ⟨hs.countEq, ?_, hs.pDom, hs.aDom, hs.domVal, ?_, ?_, ?_, hs.deadlines⟩
    · intro e he
      have he' : e ∈ s.requestQueue ++ [(⟨rid, d, p, s.nextSeq, now⟩ : Entry)] :=
        mem_sortQueue.mp he
      rcases List.mem_append.mp he' with h1 | h1
      · exact hs.qDom e h1
      · rcases List.mem_singleton.mp h1 with rfl
        exact hd
    · exact sortQueue_append_single_pairwise hs.qSorted fun g hg => hs.seqLt g hg
    · intro e he
      show e.seq < s.nextSeq + 1
      have he' : e ∈ s.requestQueue ++ [(⟨rid, d, p, s.nextSeq, now⟩ : Entry)] :=
        mem_sortQueue.mp he
      rcases List.mem_append.mp he' with h1 | h1
      · have := hs.seqLt e h1
        omega
      · rcases List.mem_singleton.mp h1 with rfl
        show s.nextSeq < s.nextSeq + 1
        omega
    · intro x
      show ((sortQueue (s.requestQueue ++ [(⟨rid, d, p, s.nextSeq, now⟩ : Entry)])).map
          (fun b => b.rid) ++ s.pending.map (fun b => b.rid) ++
          s.activeList.map (fun b => b.rid)).count x ≤ 1
      have hperm := (sortQueue_perm
        (s.requestQueue ++ [(⟨rid, d, p, s.nextSeq, now⟩ : Entry)])).map (fun b => b.rid)
      rw [List.count_append, List.count_append, hperm.count_eq x, List.map_append,
        List.count_append]
      have h1 := hs.ridCount x
      rw [allRids, List.count_append, List.count_append] at h1
      simp only [queueRids, pendingRids, activeRids] at h1
      have h0 := hfresh
      rw [allRids, List.count_append, List.count_append] at h0
      simp only [queueRids, pendingRids, activeRids] at h0
      have hsing : (([(⟨rid, d, p, s.nextSeq, now⟩ : Entry)]).map (fun b => b.rid)).count x =
          if x = rid then 1 else 0 := by
        by_cases hx : x = rid <;> simp [hx]
      rw [hsing]
      by_cases hx : x = rid
      · subst hx
        rw [if_pos rfl]
        omega
      · rw [if_neg hx]
        omega
  · split
    · -- under capacity but inside the minimum-delay window: suspend
      refine ⟨hs.countEq, hs.qDom, ?_, hs.aDom, hs.domVal, hs.qSorted, hs.seqLt, ?_,
        hs.deadlines⟩
      · intro q hq
        rcases List.mem_append.mp hq with h1 | h1
        · exact hs.pDom q h1
        · rcases List.mem_singleton.mp h1 with rfl
          exact hd
      · intro x
        show (s.requestQueue.map (fun b => b.rid) ++
            (s.pending ++ [(⟨rid, d, now, s.lastRequestTime + s.minDelay⟩ : PendingReq)]).map
              (fun b => b.rid) ++ s.activeList.map (fun b => b.rid)).count x ≤ 1
        rw [List.count_append, List.count_append, List.map_append, List.count_append]
        have h1 := hs.ridCount x
        rw [allRids, List.count_append, List.count_append] at h1
        simp only [queueRids, pendingRids, activeRids] at h1
        have h0 := hfresh
        rw [allRids, List.count_append, List.count_append] at h0
        simp only [queueRids, pendingRids, activeRids] at h0
        have hsing : (([(⟨rid, d, now, s.lastRequestTime + s.minDelay⟩ : PendingReq)]).map
            (fun b => b.rid)).count x = if x = rid then 1 else 0 := by
          by_cases hx : x = rid <;> simp [hx]
        rw [hsing]
        by_cases hx : x = rid
        · subst hx
          rw [if_pos rfl]
          omega
        · rw [if_neg hx]
          omega
    · exact inv_executeRequest hs hd hfresh

theorem inv_completeBookkeep {s : ThState} {r : Nat} {a : ActiveReq} (hs : Inv s)
    (hfind : findActive r s.activeList = some a) :
    Inv (completeBookkeep s r) := by
  have hcb : completeBookkeep s r =
      { s with
        activeList := removeActive r s.activeList
        activeRequests := s.activeRequests - 1
        domainQueues := decDom a.domain s.domainQueues } := by
    unfold completeBookkeep
    rw [hfind]
    rfl
  rw [hcb]
  obtain ⟨hrid, hmem⟩ := findActive_rid_mem hfind
  refine ⟨?_, ?_, ?_, ?_, ?_, hs.qSorted, hs.seqLt, ?_, ?_⟩
  · show s.activeRequests - 1 = (removeActive r s.activeList).length
    have h1 := hs.countEq
    have h2 := length_removeActive hfind
    omega
  · intro e he
    exact isSome_getDom_decDom _ (hs.qDom e he)
  · intro q hq
    exact isSome_getDom_decDom _ (hs.pDom q hq)
  · intro b hb
    exact isSome_getDom_decDom _ (hs.aDom b ((removeActive_sublist r s.activeList).subset hb))
  · intro x v hv
    have hv' : getDom x (decDom a.domain s.domainQueues) = some v := hv
    rw [getDom_decDom] at hv'
    have hrm := domCount_removeActive hfind x
    show v = domCount x (removeActive r s.activeList)
    by_cases hx : x = a.domain
    · subst hx
      rw [if_pos rfl] at hv'
      obtain ⟨w, hw⟩ := Option.isSome_iff_exists.mp (hs.aDom a hmem)
      rw [hw] at hv'
      have hv1 : w - 1 = v := by simpa using hv'
      have h2 := hs.domVal _ w hw
      rw [if_pos rfl] at hrm
      omega
    · rw [if_neg hx] at hv'
      have h2 := hs.domVal x v hv'
      rw [if_neg fun hh => hx hh.symm] at hrm
      omega
  · intro x
    show (s.requestQueue.map (fun b => b.rid) ++ s.pending.map (fun b => b.rid) ++
        (removeActive r s.activeList).map (fun b => b.rid)).count x ≤ 1
    have hcnt := count_rids_removeActive hfind x
    have h1 := hs.ridCount x
    rw [allRids, List.count_append, List.count_append] at h1
    simp only [queueRids, pendingRids, activeRids] at h1
    rw [List.count_append, List.count_append]
    omega
  · intro b hb
    exact hs.deadlines b ((removeActive_sublist r s.activeList).subset hb)

theorem inv_processQueue {s : ThState} (hs : Inv s) (now : Nat) :
    Inv (processQueue s now) := by
  unfold processQueue
  cases hscan : scanQueue s.activeRequests s.maxConcurrent s.maxPerDomain
      s.domainQueues s.requestQueue with
  | none => exact hs
  | some pr =>
    obtain ⟨e, rest⟩ := pr
    obtain ⟨pre, suf, hq, hrest, hpre, hel⟩ := scanQueue_some hscan
    have hsub : List.Sublist rest s.requestQueue := by
      rw [hq, hrest]
      exact (List.sublist_cons_self e suf).append_left pre
    have he_mem : e ∈ s.requestQueue := by
      rw [hq]
      exact List.mem_append.mpr (Or.inr (List.mem_cons_self e suf))
    have hinv1 : Inv { s with requestQueue := rest } := by
      refine ⟨hs.countEq, ?_, hs.pDom, hs.aDom, hs.domVal, hs.qSorted.sublist hsub, ?_, ?_,
        hs.deadlines⟩
      · intro x hx
        exact hs.qDom x (hsub.subset hx)
      · intro x hx
        exact hs.seqLt x (hsub.subset hx)
      · intro x
        show (rest.map (fun b => b.rid) ++ s.pending.map (fun b => b.rid) ++
            s.activeList.map (fun b => b.rid)).count x ≤ 1
        have h1 := hs.ridCount x
        rw [allRids, List.count_append, List.count_append] at h1
        simp only [queueRids, pendingRids, activeRids] at h1
        rw [List.count_append, List.count_append]
        have h2 : (rest.map (fun b => b.rid)).count x ≤
            (s.requestQueue.map (fun b => b.rid)).count x :=
          (hsub.map _).count_le x
        omega
    have hfresh : (allRids { s with requestQueue := rest }).count e.rid = 0 := by
      show (rest.map (fun b => b.rid) ++ s.pending.map (fun b => b.rid) ++
          s.activeList.map (fun b => b.rid)).count e.rid = 0
      have h1 := hs.ridCount e.rid
      rw [allRids, List.count_append, List.count_append] at h1
      simp only [queueRids, pendingRids, activeRids] at h1
      rw [List.count_append, List.count_append]
      have hqc : (s.requestQueue.map (fun b => b.rid)).count e.rid =
          (rest.map (fun b => b.rid)).count e.rid + 1 := by
        rw [hq, hrest, List.map_append, List.map_append, List.map_cons,
          List.count_append, List.count_append, List.count_cons]
        simp
        omega
      have hq1 : 1 ≤ (s.requestQueue.map (fun b => b.rid)).count e.rid :=
        List.count_pos_iff.mpr (List.mem_map_of_mem _ he_mem)
      omega
    exact inv_executeRequest hinv1 (hs.qDom e he_mem) hfresh

theorem inv_step {s s' : ThState} {ev : Ev} (hs : Inv s) (h : step s ev = some s') :
    Inv s' := by
  cases ev with
  | submit rid d p now =>
    simp only [step] at h
    split at h
    · exact absurd h (by simp)
    next hu =>
      injection h with h
      subst h
      have hd : (getDom d (setDomIfAbsent d s.domainQueues)).isSome := by
        rw [getDom_setDomIfAbsent_self]
        rfl
      have hfresh : (allRids { s with
          domainQueues := setDomIfAbsent d s.domainQueues }).count rid = 0 :=
        usedRid_false_count (by simpa using hu)
      exact inv_submitCore (inv_setDomIfAbsent hs d) hd hfresh
  | delayDone rid now =>
    simp only [step] at h
    split at h
    · exact absurd h (by simp)
    next p hfind =>
      split at h
      next ht =>
        injection h with h
        subst h
        obtain ⟨hrid, hmem⟩ := findPending_rid_mem hfind
        have hinv1 : Inv { s with pending := removePending rid s.pending } := by
          refine ⟨hs.countEq, hs.qDom, ?_, hs.aDom, hs.domVal, hs.qSorted, hs.seqLt, ?_,
            hs.deadlines⟩
          · intro q hq
            exact hs.pDom q ((removePending_sublist rid s.pending).subset hq)
          · intro x
            show (s.requestQueue.map (fun b => b.rid) ++
                (removePending rid s.pending).map (fun b => b.rid) ++
                s.activeList.map (fun b => b.rid)).count x ≤ 1
            have h1 := hs.ridCount x
            rw [allRids, List.count_append, List.count_append] at h1
            simp only [queueRids, pendingRids, activeRids] at h1
            rw [List.count_append, List.count_append]
            have h2 := count_rids_removePending hfind x
            omega
        have hfresh : (allRids { s with pending := removePending rid s.pending }).count
            rid = 0 := by
          show (s.requestQueue.map (fun b => b.rid) ++
              (removePending rid s.pending).map (fun b => b.rid) ++
              s.activeList.map (fun b => b.rid)).count rid = 0
          have h1 := hs.ridCount rid
          rw [allRids, List.count_append, List.count_append] at h1
          simp only [queueRids, pendingRids, activeRids] at h1
          rw [List.count_append, List.count_append]
          have h2 := count_rids_removePending hfind rid
          rw [if_pos rfl] at h2
          have h3 : 1 ≤ (s.pending.map (fun b => b.rid)).count rid := by
            refine List.count_pos_iff.mpr ?_
            rw [show rid = p.rid from hrid.symm]
            exact List.mem_map_of_mem _ hmem
          omega
        have hd : (getDom p.domain s.domainQueues).isSome := hs.pDom p hmem
        exact inv_executeRequest hinv1 hd hfresh
      next ht =>
        exact absurd h (by simp)
  | complete rid o now =>
    simp only [step] at h
    split at h
    · exact absurd h (by simp)
    next a hfind =>
      have hcb : Inv (completeBookkeep s rid) := inv_completeBookkeep hs hfind
      split at h
      · split at h
        next ht =>
          injection h with h
          subst h
          exact inv_processQueue hcb now
        next ht =>
          exact absurd h (by simp)
      · split at h
        next ht =>
          injection h with h
          subst h
          exact inv_processQueue hcb now
        next ht =>
          exact absurd h (by simp)

theorem run_inv {evs : List Ev} : ∀ {s s' : ThState}, Inv s → run s evs = some s' →
    Inv s' := by
  induction evs with
  | nil =>
    intro s s' hs h
    injection h with h
    subst h
    exact hs
  | cons ev evs ih =>
    intro s s' hs h
    unfold run at h
    cases hstep : step s ev with
    | none =>
      rw [hstep] at h
      exact absurd h (by simp)
    | some s1 =>
      rw [hstep] at h
      exact ih (inv_step hs hstep) h

/-- Every state reachable from a fresh throttler satisfies the invariant. -/
theorem reach_inv {mc : Nat} {s : ThState} (h : Reach mc s) : Inv s := by
  obtain ⟨evs, hrun⟩ := h
  exact run_inv (inv_init mc) hrun

/-! ## Helper lemmas about the completion step -/

theorem completeBookkeep_requestQueue (s : ThState) (r : Nat) :
    (completeBookkeep s r).requestQueue = s.requestQueue := by
  unfold completeBookkeep
  cases findActive r s.activeList <;> rfl

theorem completeBookkeep_activeList {s : ThState} {r : Nat} {a : ActiveReq}
    (hfind : findActive r s.activeList = some a) :
    (completeBookkeep s r).activeList = removeActive r s.activeList := by
  unfold completeBookkeep
  rw [hfind]
  rfl

theorem complete_step_eq {s : ThState} {rid : Nat} {a : ActiveReq} {o : Outcome}
    {now : Nat} {s' : ThState}
    (hfind : findActive rid s.activeList = some a)
    (hstep : step s (.complete rid o now) = some s') :
    s' = processQueue (completeBookkeep s rid) now := by
  cases o <;> simp only [step, hfind] at hstep <;> split at hstep
  all_goals
    first
    | (injection hstep with hstep; exact hstep.symm)
    | exact absurd hstep (by simp)

theorem activeList_processQueue_mem {s : ThState} {now : Nat} {b : ActiveReq}
    (hb : b ∈ (processQueue s now).activeList) :
    b ∈ s.activeList ∨ ∃ e ∈ s.requestQueue, b.rid = e.rid := by
  revert hb
  unfold processQueue
  cases hscan : scanQueue s.activeRequests s.maxConcurrent s.maxPerDomain
      s.domainQueues s.requestQueue with
  | none =>
    intro hb
    exact Or.inl hb
  | some pr =>
    obtain ⟨e, rest⟩ := pr
    intro hb
    have hmem : b ∈ s.activeList ++
        [(⟨e.rid, e.domain, now, now + tileTimeoutMs, e.submitTime⟩ : ActiveReq)] := hb
    rcases List.mem_append.mp hmem with h1 | h1
    · exact Or.inl h1
    · rcases List.mem_singleton.mp h1 with rfl
      obtain ⟨pre, suf, hq, _, _, _⟩ := scanQueue_some hscan
      refine Or.inr ⟨e, ?_, rfl⟩
      rw [hq]
      exact List.mem_append.mpr (Or.inr (List.mem_cons_self e suf))

/-! ## C3: the drain admits the best eligible queued entry -/

/-- C3: on a queue drain (the `_processQueue` run inside a completion of
request `r` from a reachable state), the admitted entry — the one the scan
returns, if any — is eligible (its domain is under `maxPerDomain` while the
global count is under `maxConcurrent`), and among all eligible queued
entries it has the least `priority`, with ties broken by arrival order
(smaller ghost `seq`); in particular every queued entry of better or equal
priority that is passed over fails the eligibility test. -/
theorem c3_drain_admits_min {mc : Nat} {s : ThState} (h : Reach mc s) (r : Nat)
    {e : Entry} {rest : List Entry}
    (hscan : scanQueue (completeBookkeep s r).activeRequests
        (completeBookkeep s r).maxConcurrent (completeBookkeep s r).maxPerDomain
        (completeBookkeep s r).domainQueues (completeBookkeep s r).requestQueue =
      some (e, rest)) :
    eligible (completeBookkeep s r) e ∧
      ∀ e' ∈ (completeBookkeep s r).requestQueue, eligible (completeBookkeep s r) e' →
        e' = e ∨ e.priority < e'.priority ∨
          (e.priority = e'.priority ∧ e.seq < e'.seq) := by
  obtain ⟨pre, suf, hq, hrest, hpre, hel⟩ := scanQueue_some hscan
  have hsorted : (completeBookkeep s r).requestQueue.Pairwise entLE := by
    rw [completeBookkeep_requestQueue]
    exact (reach_inv h).qSorted
  constructor
  · exact ⟨hel.1, hel.2⟩
  · intro e' he' helig
    by_cases hee : e' = e
    · exact Or.inl hee
    · right
      rw [hq] at he'
      rcases List.mem_append.mp he' with hp | hp
      · exact absurd ⟨helig.1, helig.2⟩ (hpre e' hp)
      · rcases List.mem_cons.mp hp with rfl | hp'
        · exact absurd rfl hee
        · have hsl : List.Sublist (e :: suf) (completeBookkeep s r).requestQueue := by
            rw [hq]
            exact List.sublist_append_right pre (e :: suf)
          have hps := hsorted.sublist hsl
          exact (List.pairwise_cons.mp hps).1 e' hp'

/-! ## C4: at most one admission per drain -/

/-- C4: a single `_processQueue` call either changes nothing or removes
exactly one entry from the queue and starts exactly one execution
(incrementing `activeRequests` by one and adding one in-flight request),
regardless of how many queued entries are eligible or how much capacity is
free. -/
theorem c4_single_admission (s : ThState) (now : Nat) :
    processQueue s now = s ∨
      ((processQueue s now).requestQueue.length + 1 = s.requestQueue.length ∧
        (processQueue s now).activeRequests = s.activeRequests + 1 ∧
        (processQueue s now).activeList.length = s.activeList.length + 1) := by
  unfold processQueue
  cases hscan : scanQueue s.activeRequests s.maxConcurrent s.maxPerDomain
      s.domainQueues s.requestQueue with
  | none => exact Or.inl rfl
  | some pr =>
    obtain ⟨e, rest⟩ := pr
    right
    obtain ⟨pre, suf, hq, hrest, _, _⟩ := scanQueue_some hscan
    refine ⟨?_, rfl, ?_⟩
    · show rest.length + 1 = s.requestQueue.length
      rw [hq, hrest]
      simp
      omega
    · show (s.activeList ++
        [(⟨e.rid, e.domain, now, now + tileTimeoutMs, e.submitTime⟩ : ActiveReq)]).length =
        s.activeList.length + 1
      simp

/-! ## C5: completion bookkeeping is identical for all three outcomes -/

/-- C5: for an in-flight request `a` of a reachable state, delivering any of
the three outcomes (success, load error, timeout) at the timer expiry
instant performs the same bookkeeping: remove `a`, decrement
`activeRequests` by exactly one, decrement `a`'s domain counter by exactly
one, and run exactly one queue drain; moreover after any completion of
`a.rid` a second completion event for `a.rid` cannot occur. -/
theorem c5_slot_release_all_outcomes {mc : Nat} {s : ThState} (h : Reach mc s)
    {a : ActiveReq} (ha : a ∈ s.activeList) :
    (∀ o : Outcome, step s (.complete a.rid o a.deadline) =
        some (processQueue (completeBookkeep s a.rid) a.deadline)) ∧
    (completeBookkeep s a.rid).activeRequests + 1 = s.activeRequests ∧
    (∃ da, getDom a.domain s.domainQueues = some (da + 1) ∧
      getDom a.domain (completeBookkeep s a.rid).domainQueues = some da) ∧
    (∀ o now s', step s (.complete a.rid o now) = some s' →
      ∀ o' now', step s' (.complete a.rid o' now') = none) := by
  have hinv := reach_inv h
  have hcount : (s.activeList.map (fun b => b.rid)).count a.rid ≤ 1 := by
    have h1 := hinv.ridCount a.rid
    rw [allRids, List.count_append, List.count_append] at h1
    simp only [queueRids, pendingRids, activeRids] at h1
    omega
  have hfind : findActive a.rid s.activeList = some a := findActive_of_mem_unique hcount ha
  have hcbq : (completeBookkeep s a.rid).activeRequests = s.activeRequests - 1 := by
    unfold completeBookkeep
    rw [hfind]
    rfl
  have hcbd : (completeBookkeep s a.rid).domainQueues = decDom a.domain s.domainQueues := by
    unfold completeBookkeep
    rw [hfind]
    rfl
  refine ⟨?_, ?_, ?_, ?_⟩
  · intro o
    cases o <;> simp [step, hfind]
  · have h1 := hinv.countEq
    have h2 : 0 < s.activeList.length := List.length_pos.mpr fun hnil => by
      rw [hnil] at ha
      exact absurd ha (List.not_mem_nil a)
    omega
  · obtain ⟨w, hw⟩ := Option.isSome_iff_exists.mp (hinv.aDom a ha)
    have hval := hinv.domVal _ w hw
    have hrm := domCount_removeActive hfind a.domain
    rw [if_pos rfl] at hrm
    have hw1 : 1 ≤ w := by omega
    refine ⟨w - 1, ?_, ?_⟩
    · rw [show w - 1 + 1 = w from by omega]
      exact hw
    · rw [hcbd, getDom_decDom, if_pos rfl, hw]
      rfl
  · intro o now s' hstep o' now'
    have hs' := complete_step_eq hfind hstep
    subst hs'
    have hnone : findActive a.rid
        (processQueue (completeBookkeep s a.rid) now).activeList = none := by
      apply findActive_eq_none
      intro b hb hbr
      rcases activeList_processQueue_mem hb with hb1 | ⟨e, he, hbe⟩
      · rw [completeBookkeep_activeList hfind] at hb1
        have hcnt := count_rids_removeActive hfind a.rid
        rw [if_pos rfl] at hcnt
        have hmm : b.rid ∈ (removeActive a.rid s.activeList).map (fun c => c.rid) :=
          List.mem_map_of_mem _ hb1
        rw [hbr] at hmm
        have := List.count_pos_iff.mpr hmm
        omega
      · rw [completeBookkeep_requestQueue] at he
        have h1 := hinv.ridCount a.rid
        rw [allRids, List.count_append, List.count_append] at h1
        simp only [queueRids, pendingRids, activeRids] at h1
        have hact1 : 1 ≤ (s.activeList.map (fun b => b.rid)).count a.rid :=
          List.count_pos_iff.mpr (List.mem_map_of_mem _ ha)
        have hq0 : (s.requestQueue.map (fun b => b.rid)).count a.rid = 0 := by omega
        rw [List.count_eq_zero] at hq0
        apply hq0
        rw [show a.rid = e.rid from hbr ▸ hbe]
        exact List.mem_map_of_mem _ he
    simp only [step, hnone]

/-! ## C6: the timeout budget runs from admission, not submission -/

/-- C6: for every in-flight request of a reachable state, the timeout timer
expires exactly `tileTimeoutMs` after the admission instant `start` — the
timer is started by `_executeRequest` when the request turns active, never
at submission, so time spent queued (between the ghost `submitTime` and
`start`, which can be arbitrarily large) consumes none of the timeout
budget; consequently a timeout outcome can only be delivered at
`start + tileTimeoutMs`. -/
theorem c6_timeout_from_admission {mc : Nat} {s : ThState} (h : Reach mc s)
    {a : ActiveReq} (ha : a ∈ s.activeList) :
    a.deadline = a.start + tileTimeoutMs ∧
    ∀ now s', step s (.complete a.rid .timeout now) = some s' →
      now = a.start + tileTimeoutMs := by
  have hinv := reach_inv h
  refine ⟨hinv.deadlines a ha, ?_⟩
  intro now s' hstep
  have hcount : (s.activeList.map (fun b => b.rid)).count a.rid ≤ 1 := by
    have h1 := hinv.ridCount a.rid
    rw [allRids, List.count_append, List.count_append] at h1
    simp only [queueRids, pendingRids, activeRids] at h1
    omega
  have hfind : findActive a.rid s.activeList = some a := findActive_of_mem_unique hcount ha
  simp only [step, hfind] at hstep
  split at hstep
  next ht =>
    rw [ht]
    exact hinv.deadlines a ha
  next ht =>
    exact absurd hstep (by simp)

/-! ## C9: the drain never looks up a missing domain record -/

/-- C9: in every reachable state, every entry of the pending queue has a
domain whose record already exists in `domainQueues` (it was created by
`throttleRequest` before the entry was pushed, and records are never
removed), so `_processQueue`'s unguarded `domainInfo.active` read can never
dereference a missing `Map` entry. -/
theorem c9_queued_domains_present {mc : Nat} {s : ThState} (h : Reach mc s) :
    ∀ e ∈ s.requestQueue, (getDom e.domain s.domainQueues).isSome :=
  (reach_inv h).qDom

/-! ## C10: drain admissions skip the minimum-delay spacing -/

/-- C10: when a completion event admits a request from the queue, the
admitted request starts executing at the completion instant itself —
there is no hypothesis relating `now` to `lastRequestTime + minDelay`, so
no inter-request spacing is awaited on this path (unlike the
direct-admission path of `throttleRequest`, which suspends when
`now - lastRequestTime < minDelay`) — and the admission still updates
`lastRequestTime` to `now` for later direct admissions to observe. -/
theorem c10_drain_skips_spacing {s : ThState} {rid : Nat} {o : Outcome} {now : Nat}
    {s' : ThState} (hstep : step s (.complete rid o now) = some s') {a : ActiveReq}
    (hmem : a ∈ s'.activeList) (hnew : a ∉ s.activeList) :
    a.start = now ∧ a.deadline = now + tileTimeoutMs ∧ s'.lastRequestTime = now ∧
      ∃ e ∈ s.requestQueue, e.rid = a.rid ∧ e.submitTime = a.submitTime := by
  cases hfind : findActive rid s.activeList with
  | none =>
    simp only [step, hfind] at hstep
    exact absurd hstep (by simp)
  | some b =>
    have hs' := complete_step_eq hfind hstep
    subst hs'
    revert hmem
    unfold processQueue
    cases hscan : scanQueue (completeBookkeep s rid).activeRequests
        (completeBookkeep s rid).maxConcurrent (completeBookkeep s rid).maxPerDomain
        (completeBookkeep s rid).domainQueues (completeBookkeep s rid).requestQueue with
    | none =>
      intro hmem
      exfalso
      apply hnew
      have hb : a ∈ (completeBookkeep s rid).activeList := hmem
      rw [completeBookkeep_activeList hfind] at hb
      exact (removeActive_sublist rid s.activeList).subset hb
    | some pr =>
      obtain ⟨e, rest⟩ := pr
      intro hmem
      have hmm : a ∈ (completeBookkeep s rid).activeList ++
          [(⟨e.rid, e.domain, now, now + tileTimeoutMs, e.submitTime⟩ : ActiveReq)] := hmem
      rcases List.mem_append.mp hmm with h1 | h1
      · exfalso
        apply hnew
        rw [completeBookkeep_activeList hfind] at h1
        exact (removeActive_sublist rid s.activeList).subset h1
      · rcases List.mem_singleton.mp h1 with rfl
        refine ⟨rfl, rfl, rfl, e, ?_, rfl, rfl⟩
        obtain ⟨pre, suf, hq, _, _, _⟩ := scanQueue_some hscan
        rw [← completeBookkeep_requestQueue s rid, hq]
        exact List.mem_append.mpr (Or.inr (List.mem_cons_self e suf))

/-! ## C7: the starvation pump -/

theorem runN_succ (mc : Nat) (evs : Nat → Ev) (n : Nat) :
    runN mc evs (n + 1) = (runN mc evs n).bind fun s => step s (evs n) := by
  show (match runN mc evs n with
    | some s => step s (evs n)
    | none => none) = _
  cases runN mc evs n <;> rfl

theorem starveEvs_submit_idx (j : Nat) :
    starveEvs (2 * j + 3) = .submit (10 + j) 1 1 (400 + 2 * j) := by
  show (if (2 * j) % 2 = 0 then
      Ev.submit (10 + 2 * j / 2) 1 1 (400 + 2 * (2 * j / 2))
    else Ev.complete (8 + 2 * j / 2) .success (401 + 2 * (2 * j / 2))) = _
  rw [if_pos (by omega : (2 * j) % 2 = 0), show 2 * j / 2 = j from by omega]

theorem starveEvs_complete_idx (j : Nat) :
    starveEvs (2 * j + 4) = .complete (8 + j) .success (401 + 2 * j) := by
  show (if (2 * j + 1) % 2 = 0 then
      Ev.submit (10 + (2 * j + 1) / 2) 1 1 (400 + 2 * ((2 * j + 1) / 2))
    else Ev.complete (8 + (2 * j + 1) / 2) .success (401 + 2 * ((2 * j + 1) / 2))) = _
  rw [if_neg (by omega : ¬(2 * j + 1) % 2 = 0), show (2 * j + 1) / 2 = j from by omega]

/-- Pump, first half: in state `SState j` the fresh priority-1 submission for
the saturated domain 1 is queued ahead of request 3. -/
theorem starve_pumpA (j : Nat) :
    step (SState j) (.submit (10 + j) 1 1 (400 + 2 * j)) = some (MState j) := by
  have hused : usedRid (SState j) (10 + j) = false := by
    simp [usedRid, SState]
    omega
  simp only [step, hused, Bool.false_eq_true, if_false]
  rfl

/-- Pump, second half: completing the oldest in-flight request admits the
fresh priority-1 entry, never request 3. -/
theorem starve_pumpB (j : Nat) :
    step (MState j) (.complete (8 + j) .success (401 + 2 * j)) = some (SState (j + 1)) := by
  have hfind : findActive (8 + j) (MState j).activeList =
      some (⟨8 + j, 1, 397 + 2 * j, 10397 + 2 * j, 396 + 2 * j⟩ : ActiveReq) := by
    show findActive (8 + j)
      [(⟨8 + j, 1, 397 + 2 * j, 10397 + 2 * j, 396 + 2 * j⟩ : ActiveReq),
       ⟨9 + j, 1, 399 + 2 * j, 10399 + 2 * j, 398 + 2 * j⟩] = _
    unfold findActive
    rw [if_pos rfl]
  have hrm : removeActive (8 + j) (MState j).activeList =
      [(⟨9 + j, 1, 399 + 2 * j, 10399 + 2 * j, 398 + 2 * j⟩ : ActiveReq)] := by
    show removeActive (8 + j)
      [(⟨8 + j, 1, 397 + 2 * j, 10397 + 2 * j, 396 + 2 * j⟩ : ActiveReq),
       ⟨9 + j, 1, 399 + 2 * j, 10399 + 2 * j, 398 + 2 * j⟩] = _
    unfold removeActive
    rw [if_pos rfl]
  have hcb : completeBookkeep (MState j) (8 + j) =
      ⟨3, 2, 50, 1, [⟨10 + j, 1, 1, j + 1, 400 + 2 * j⟩, ⟨3, 1, 5, 0, 300⟩], [(1, 1)],
        399 + 2 * j, [], [⟨9 + j, 1, 399 + 2 * j, 10399 + 2 * j, 398 + 2 * j⟩], j + 2⟩ := by
    unfold completeBookkeep
    rw [hfind, hrm]
    rfl
  simp only [step, hfind]
  rw [if_pos (show 401 + 2 * j ≤ 10397 + 2 * j by omega), hcb]
  have hfin : processQueue
      (⟨3, 2, 50, 1, [⟨10 + j, 1, 1, j + 1, 400 + 2 * j⟩, ⟨3, 1, 5, 0, 300⟩], [(1, 1)],
        399 + 2 * j, [], [⟨9 + j, 1, 399 + 2 * j, 10399 + 2 * j, 398 + 2 * j⟩], j + 2⟩ :
        ThState) (401 + 2 * j) = SState (j + 1) := by
    show (⟨3, 2, 50, 2, [⟨3, 1, 5, 0, 300⟩], [(1, 2)], 401 + 2 * j, [],
      [⟨9 + j, 1, 399 + 2 * j, 10399 + 2 * j, 398 + 2 * j⟩,
       ⟨10 + j, 1, 401 + 2 * j, 401 + 2 * j + 10000, 400 + 2 * j⟩], j + 2⟩ : ThState) =
      SState (j + 1)
    simp only [SState, ThState.mk.injEq, List.cons.injEq, ActiveReq.mk.injEq,
      Entry.mk.injEq, and_true, true_and]
    omega
  rw [hfin]

/-- The states along the starvation stream, for rounds `j ≥ 2`. -/
theorem starve_SM : ∀ j, 2 ≤ j →
    runN 3 starveEvs (2 * j + 3) = some (SState j) ∧
    runN 3 starveEvs (2 * j + 4) = some (MState j) := by
  intro j hj
  induction j with
  | zero => omega
  | succ j ih =>
    rcases Nat.lt_or_ge j 2 with hj2 | hj2
    · have hj1 : j = 1 := by omega
      subst hj1
      exact ⟨by decide, by decide⟩
    · obtain ⟨ihS, ihM⟩ := ih hj2
      have hS1 : runN 3 starveEvs (2 * (j + 1) + 3) = some (SState (j + 1)) := by
        have hidx : 2 * (j + 1) + 3 = (2 * j + 4) + 1 := by omega
        rw [hidx, runN_succ, ihM]
        show step (MState j) (starveEvs (2 * j + 4)) = some (SState (j + 1))
        rw [starveEvs_complete_idx]
        exact starve_pumpB j
      refine ⟨hS1, ?_⟩
      have hidx : 2 * (j + 1) + 4 = (2 * (j + 1) + 3) + 1 := by omega
      rw [hidx, runN_succ, hS1]
      show step (SState (j + 1)) (starveEvs (2 * (j + 1) + 3)) = some (MState (j + 1))
      rw [starveEvs_submit_idx]
      exact starve_pumpA (j + 1)

theorem starve_getD {o : Option ThState} {s : ThState} (h : o = some s) :
    s = o.getD (init 3) := by
  rw [h]
  rfl

/-- Request 3 is never in the active state along the starvation stream. -/
theorem starve_never_active :
    ∀ n s, runN 3 starveEvs n = some s → 3 ∉ activeRids s := by
  intro n s hs
  rw [starve_getD hs]
  rcases Nat.lt_or_ge n 7 with h7 | h7
  · interval_cases n <;> decide
  · rcases Nat.even_or_odd n with ⟨k, hk⟩ | ⟨k, hk⟩
    · obtain ⟨j, hj2, rfl⟩ : ∃ j, 2 ≤ j ∧ n = 2 * j + 4 := ⟨(n - 4) / 2, by omega, by omega⟩
      rw [(starve_SM j hj2).2]
      show 3 ∉ activeRids (MState j)
      simp [activeRids, MState, SState]
      omega
    · obtain ⟨j, hj2, rfl⟩ : ∃ j, 2 ≤ j ∧ n = 2 * j + 3 := ⟨(n - 3) / 2, by omega, by omega⟩
      rw [(starve_SM j hj2).1]
      show 3 ∉ activeRids (SState j)
      simp [activeRids, SState]
      omega

/-- Every prefix of the starvation stream can occur. -/
theorem starve_admissible : ∀ n, (runN 3 starveEvs n).isSome := by
  intro n
  rcases Nat.lt_or_ge n 7 with h7 | h7
  · interval_cases n <;> decide
  · rcases Nat.even_or_odd n with ⟨k, hk⟩ | ⟨k, hk⟩
    · obtain ⟨j, hj2, rfl⟩ : ∃ j, 2 ≤ j ∧ n = 2 * j + 4 := ⟨(n - 4) / 2, by omega, by omega⟩
      rw [(starve_SM j hj2).2]
      rfl
    · obtain ⟨j, hj2, rfl⟩ : ∃ j, 2 ≤ j ∧ n = 2 * j + 3 := ⟨(n - 3) / 2, by omega, by omega⟩
      rw [(starve_SM j hj2).1]
      rfl

/-- Completion events keep occurring forever along the starvation stream. -/
theorem starve_infinitely_many_completes :
    ∀ n, ∃ m, n ≤ m ∧ isCompleteEv (starveEvs m) = true := by
  intro n
  refine ⟨2 * n + 4, by omega, ?_⟩
  rw [starveEvs_complete_idx]
  rfl

/-- C7, counterexample: eventual admission fails on the code.  The starvation
stream `starveEvs` is admissible and delivers completion events forever, yet
request 3 — queued from event 3 on — is never admitted: every drain admits
the freshly submitted priority-1 request instead. -/
theorem c7_eventual_admission_false : ¬EventualAdmissionClaim := by
  intro hclaim
  obtain ⟨m, t, hm, hrun, hmem⟩ := hclaim starveEvs starve_admissible
    starve_infinitely_many_completes (2 * 2 + 3) (SState 2) 3
    (starve_SM 2 (by omega)).1 (by decide)
  exact starve_never_active m t hrun hmem

/-- C7 (amended): no entry is ever removed from the pending queue without
being executed — whenever a step removes an entry from `requestQueue`, that
same step admitted it to the in-flight set (same identity, domain, and
submission instant).  The eventual-admission half of the original claim is
dropped: as `c7_eventual_admission_false` shows, a queued request can stay
queued across unboundedly many completions when better-priority requests
keep arriving. -/
theorem c7_no_silent_removal {s : ThState} {ev : Ev} {s' : ThState}
    (h : step s ev = some s') {e : Entry} (he : e ∈ s.requestQueue)
    (hgone : e ∉ s'.requestQueue) :
    ∃ a, a ∈ s'.activeList ∧ a.rid = e.rid ∧ a.domain = e.domain ∧
      a.submitTime = e.submitTime := by
  cases ev with
  | submit rid d p now =>
    simp only [step] at h
    split at h
    · exact absurd h (by simp)
    · injection h with h
      subst h
      exfalso
      apply hgone
      show e ∈ (submitCore { s with
        domainQueues := setDomIfAbsent d s.domainQueues } rid d p now).requestQueue
      unfold submitCore
      split
      · exact mem_sortQueue.mpr (List.mem_append.mpr (Or.inl he))
      · split
        · exact he
        · exact he
  | delayDone rid now =>
    simp only [step] at h
    split at h
    · exact absurd h (by simp)
    next p hfind =>
      split at h
      next ht =>
        injection h with h
        subst h
        exact absurd he hgone
      next ht =>
        exact absurd h (by simp)
  | complete rid o now =>
    cases hfind : findActive rid s.activeList with
    | none =>
      simp only [step, hfind] at h
      exact absurd h (by simp)
    | some b =>
      have hs' := complete_step_eq hfind h
      subst hs'
      revert hgone
      unfold processQueue
      cases hscan : scanQueue (completeBookkeep s rid).activeRequests
          (completeBookkeep s rid).maxConcurrent (completeBookkeep s rid).maxPerDomain
          (completeBookkeep s rid).domainQueues (completeBookkeep s rid).requestQueue with
      | none =>
        intro hgone
        exfalso
        apply hgone
        show e ∈ (completeBookkeep s rid).requestQueue
        rw [completeBookkeep_requestQueue]
        exact he
      | some pr =>
        obtain ⟨f, rest⟩ := pr
        intro hgone
        obtain ⟨pre, suf, hq, hrest, _, _⟩ := scanQueue_some hscan
        rw [completeBookkeep_requestQueue] at hq
        have he' := hq ▸ he
        rcases List.mem_append.mp he' with hp | hp
        · exfalso
          apply hgone
          show e ∈ rest
          rw [hrest]
          exact List.mem_append.mpr (Or.inl hp)
        · rcases List.mem_cons.mp hp with rfl | hp'
          · refine ⟨⟨e.rid, e.domain, now, now + tileTimeoutMs, e.submitTime⟩, ?_, rfl,
              rfl, rfl⟩
            show _ ∈ (completeBookkeep s rid).activeList ++
              [(⟨e.rid, e.domain, now, now + tileTimeoutMs, e.submitTime⟩ : ActiveReq)]
            exact List.mem_append.mpr (Or.inr (List.mem_singleton.mpr rfl))
          · exfalso
            apply hgone
            show e ∈ rest
            rw [hrest]
            exact List.mem_append.mpr (Or.inr hp')

/-! ## Witnesses for the claim theorems with hypotheses -/

/-- Witness for C3: after request 3 (domain 2) completes, the drain passes
over the queued priority-1 request for the saturated domain 1 and admits
the priority-7 request for the free domain 2. -/
theorem c3_drain_admits_min_witness :
    eligible (completeBookkeep c3S 3) c3E ∧
      ∀ e' ∈ (completeBookkeep c3S 3).requestQueue, eligible (completeBookkeep c3S 3) e' →
        e' = c3E ∨ c3E.priority < e'.priority ∨
          (c3E.priority = e'.priority ∧ c3E.seq < e'.seq) :=
  @c3_drain_admits_min 3 c3S ⟨c3T, by decide⟩ 3 c3E [⟨4, 1, 1, 0, 400⟩] (by decide)

/-- Witness for C4: with two free slots and two eligible queued entries,
one drain admits exactly one. -/
theorem c4_single_admission_witness :
    processQueue c4S 500 ≠ c4S ∧
      ((processQueue c4S 500).requestQueue.length + 1 = c4S.requestQueue.length ∧
        (processQueue c4S 500).activeRequests = c4S.activeRequests + 1 ∧
        (processQueue c4S 500).activeList.length = c4S.activeList.length + 1) :=
  ⟨by decide, (c4_single_admission c4S 500).resolve_left (by decide)⟩

/-- Witness for C5 at the concrete one-request state `c5S`. -/
theorem c5_slot_release_all_outcomes_witness :
    (∀ o : Outcome, step c5S (.complete c5A.rid o c5A.deadline) =
        some (processQueue (completeBookkeep c5S c5A.rid) c5A.deadline)) ∧
    (completeBookkeep c5S c5A.rid).activeRequests + 1 = c5S.activeRequests ∧
    (∃ da, getDom c5A.domain c5S.domainQueues = some (da + 1) ∧
      getDom c5A.domain (completeBookkeep c5S c5A.rid).domainQueues = some da) ∧
    (∀ o now s', step c5S (.complete c5A.rid o now) = some s' →
      ∀ o' now', step s' (.complete c5A.rid o' now') = none) :=
  @c5_slot_release_all_outcomes 3 c5S ⟨c5T, by decide⟩ c5A (by decide)

/-- Witness for C6: request 4 waited queued from t=400 to t=10100 — longer
than the whole timeout budget — and its timer still expires at
`start + tileTimeoutMs = 20100`, not at `submitTime + tileTimeoutMs`. -/
theorem c6_timeout_from_admission_witness :
    (c6A.deadline = c6A.start + tileTimeoutMs ∧
      ∀ now s', step c6S (.complete c6A.rid .timeout now) = some s' →
        now = c6A.start + tileTimeoutMs) ∧
    c6A.submitTime + tileTimeoutMs < c6A.deadline :=
  ⟨@c6_timeout_from_admission 3 c6S ⟨c6T, by decide⟩ c6A (by decide), by decide⟩

/-- Witness for C9 at a state with a non-empty queue. -/
theorem c9_queued_domains_present_witness :
    c9S.requestQueue ≠ [] ∧
      ∀ e ∈ c9S.requestQueue, (getDom e.domain c9S.domainQueues).isSome :=
  ⟨by decide, @c9_queued_domains_present 3 c9S ⟨c9T, by decide⟩⟩

/-- Witness for C10: the completion at t=220 is only 20 ms after the last
request start (inside the 50 ms window), yet the drain-admitted request 3
starts at 220 immediately and `lastRequestTime` becomes 220. -/
theorem c10_drain_skips_spacing_witness :
    220 - c10S.lastRequestTime < c10S.minDelay ∧
      (c10A.start = 220 ∧ c10A.deadline = 220 + tileTimeoutMs ∧
        c10S2.lastRequestTime = 220 ∧
        ∃ e ∈ c10S.requestQueue, e.rid = c10A.rid ∧ e.submitTime = c10A.submitTime) :=
  ⟨by decide, @c10_drain_skips_spacing c10S 1 Outcome.success 220 c10S2 (by decide) c10A
    (by decide) (by decide)⟩

/-- Witness for the amended C7: completing request 1 at t=220 removes the
queued request 3 from the queue, and that same step puts it in flight. -/
theorem c7_no_silent_removal_witness :
    ∃ a, a ∈ c10S2.activeList ∧ a.rid = (⟨3, 1, 5, 0, 210⟩ : Entry).rid ∧
      a.domain = (⟨3, 1, 5, 0, 210⟩ : Entry).domain ∧
      a.submitTime = (⟨3, 1, 5, 0, 210⟩ : Entry).submitTime :=
  @c7_no_silent_removal c10S (.complete 1 .success 220) c10S2 (by decide)
    ⟨3, 1, 5, 0, 210⟩ (by decide) (by decide)

end OceanPlugin
